import Mathlib

/-!
A shallow embedding of the GQL query-language core (tokenizer, expression
evaluator, statement pipeline) and proofs about its behaviour.

Modelling conventions:
* The query text is modelled as its character sequence (`List Char`), matching
  the source's `characters: Vec<char>` scan and the character-offset `Location`
  spans.  `Char.isAlpha` / `Char.isDigit` stand for Rust's `is_alphabetic` /
  `is_numeric` (exact on ASCII input).
* Fallible evaluation (a `HashMap::get(..).unwrap()` that can panic, a
  registry lookup that can be absent) is modelled with `Option`:
  `none` stands for the panic / contract violation.
* The external collaborators that are not part of these four source files —
  the regex engine behind `Regex::new` / `is_match` and the process-wide
  `TRANSFORMATIONS` registry — are parameters of evaluation (`EvalEnv`).
-/

namespace GQL

/-- `tokenizer.rs`: a source span.  The Rust field `end` is a Lean keyword, so
it is named `stop` here. -/
structure Location where
  start : Nat
  stop : Nat
deriving DecidableEq, Repr

/-- `tokenizer.rs`: the closed set of token kinds. -/
inductive TokenKind where
  | Select
  | From
  | Where
  | Limit
  | Offset
  | Order
  | By
  | Equal
  | Or
  | And
  | Symbol
  | Number
  | String
  | Star
  | Comma
deriving DecidableEq, Repr

/-- `tokenizer.rs`: a token. -/
structure Token where
  location : Location
  kind : TokenKind
  literal : String
deriving DecidableEq, Repr

/-- `diagnostic.rs`: a structured error with a message and a span. -/
structure GQLError where
  message : String
  location : Location
deriving DecidableEq, Repr

/-- `tokenizer.rs::resolve_symbol_kind`: keyword table lookup, case-sensitive. -/
def resolveSymbolKind (literal : String) : TokenKind :=
  match literal with
  | "select" => TokenKind.Select
  | "from" => TokenKind.From
  | "where" => TokenKind.Where
  | "limit" => TokenKind.Limit
  | "offset" => TokenKind.Offset
  | "order" => TokenKind.Order
  | "by" => TokenKind.By
  | _ => TokenKind.Symbol

/-- `tokenizer.rs::tokenize`, main scan loop.  `cs` is the not-yet-consumed
suffix of the script and `pos` the absolute character position of its head
(the Rust `position` cursor).  Each branch mirrors one branch of the source:
maximal alphabetic run, maximal numeric run, quoted string (literal excludes
the quotes; on a missing closing quote the cursor still advances two past the
scanned text, i.e. one past the end of the input), the five one-character
punctuation tokens with their degenerate `{start, start}` spans, skipped
whitespace, and the "Un expected character" error. -/
def tokenizeLoop : List Char → Nat → Except GQLError (List Token)
  | [], _ => Except.ok []
  | c :: rest, pos =>
    if c.isAlpha then
      let tail := rest.takeWhile Char.isAlpha
      let lit := String.mk (c :: tail)
      let n := tail.length + 1
      (tokenizeLoop (rest.drop tail.length) (pos + n)).map
        (fun ts => ⟨⟨pos, pos + n⟩, resolveSymbolKind lit, lit⟩ :: ts)
    else if c.isDigit then
      let tail := rest.takeWhile Char.isDigit
      let lit := String.mk (c :: tail)
      let n := tail.length + 1
      (tokenizeLoop (rest.drop tail.length) (pos + n)).map
        (fun ts => ⟨⟨pos, pos + n⟩, TokenKind.Number, lit⟩ :: ts)
    else if c = '"' then
      let strChars := rest.takeWhile (fun ch => ch ≠ '"')
      let m := strChars.length
      (tokenizeLoop (rest.drop (m + 1)) (pos + m + 2)).map
        (fun ts => ⟨⟨pos, pos + m + 2⟩, TokenKind.String, String.mk strChars⟩ :: ts)
    else if c = '*' then
      (tokenizeLoop rest (pos + 1)).map
        (fun ts => ⟨⟨pos, pos⟩, TokenKind.Star, "*"⟩ :: ts)
    else if c = '|' then
      (tokenizeLoop rest (pos + 1)).map
        (fun ts => ⟨⟨pos, pos⟩, TokenKind.Or, "|"⟩ :: ts)
    else if c = '&' then
      (tokenizeLoop rest (pos + 1)).map
        (fun ts => ⟨⟨pos, pos⟩, TokenKind.And, "&"⟩ :: ts)
    else if c = ',' then
      (tokenizeLoop rest (pos + 1)).map
        (fun ts => ⟨⟨pos, pos⟩, TokenKind.Comma, ","⟩ :: ts)
    else if c = '=' then
      (tokenizeLoop rest (pos + 1)).map
        (fun ts => ⟨⟨pos, pos⟩, TokenKind.Equal, "="⟩ :: ts)
    else if c = ' ' ∨ c = '\n' ∨ c = '\t' then
      tokenizeLoop rest (pos + 1)
    else
      Except.error ⟨"Un expected character", ⟨pos, pos⟩⟩
termination_by cs _ => cs.length
decreasing_by
  all_goals simp [List.length_drop]
  all_goals omega

/-- `tokenizer.rs::tokenize`: scan the whole script from position 0. -/
def tokenize (script : String) : Except GQLError (List Token) :=
  tokenizeLoop script.data 0

/-- Re-slicing a character sequence at a half-open span `[a, b)`. -/
def sliceChars (cs : List Char) (a b : Nat) : List Char :=
  (cs.drop a).take (b - a)

/-- `object.rs` (record data model consumed by `expression.rs` and
`statement.rs`): a record is a mapping from field name to textual value.
The `HashMap<String, String>` is modelled as an association list with unique
keys; `attributes.get` is `List.lookup`. -/
structure GQLObject where
  attributes : List (String × String)
deriving DecidableEq, Repr

/-- Rust's `Ord for str`: lexicographic comparison, element by element, by
code point (identical to byte-wise UTF-8 comparison), shorter prefix first. -/
def charsCmp : List Char → List Char → Ordering
  | [], [] => Ordering.eq
  | [], _ :: _ => Ordering.lt
  | _ :: _, [] => Ordering.gt
  | x :: xs, y :: ys =>
    if x < y then Ordering.lt
    else if y < x then Ordering.gt
    else charsCmp xs ys

/-- `value.cmp(&expected)` on Rust `String`s. -/
def strCmp (value expected : String) : Ordering :=
  charsCmp value.data expected.data

/-- Rust `bool::to_string()`. -/
def boolString (b : Bool) : String :=
  if b then "true" else "false"

/-- `expression.rs`: the comparison operators. -/
inductive ComparisonOperator where
  | Greater
  | GreaterEqual
  | Less
  | LessEqual
  | Equal
  | NotEqual
deriving DecidableEq, Repr

/-- `expression.rs`: the check operators. -/
inductive CheckOperator where
  | Contains
  | StartsWith
  | EndsWith
  | Matches
deriving DecidableEq, Repr

/-- `expression.rs`: the logical operators. -/
inductive LogicalOperator where
  | Or
  | And
  | Xor
deriving DecidableEq, Repr

/-- `expression.rs`: the expression AST.  Each Rust struct implementing
`Expression` becomes one constructor; `Box<dyn Expression>` children become
recursive arguments. -/
inductive Expression where
  | StringExpression (value : String)
  | SymbolExpression (value : String)
  | NotExpression (right : Expression)
  | ComparisonExpression (left : Expression) (operator : ComparisonOperator)
      (right : Expression)
  | CheckExpression (left : Expression) (operator : CheckOperator)
      (right : Expression)
  | LogicalExpression (left : Expression) (operator : LogicalOperator)
      (right : Expression)
  | CallExpression (left : Expression) (functionName : String)
deriving Repr

/-- The two external collaborators used by `expression.rs` that live outside
these source files: the `TRANSFORMATIONS` registry (`transformation.rs`) and
the `regex` crate.  `regexNew pattern` is `Regex::new(pattern)`: `none` for an
invalid pattern, otherwise the compiled pattern's `is_match` function. -/
structure EvalEnv where
  transformations : String → Option (String → String)
  regexNew : String → Option (String → Bool)

/-- The branch table `comparisonApply operator result` of
`ComparisonExpression::evaluate`: `is_gt` / `is_ge` / `is_lt` / `is_le` /
`is_eq` / `!is_eq` on the ordering result. -/
def comparisonApply : ComparisonOperator → Ordering → Bool
  | ComparisonOperator.Greater, result => result.isGT
  | ComparisonOperator.GreaterEqual, result => result.isGE
  | ComparisonOperator.Less, result => result.isLT
  | ComparisonOperator.LessEqual, result => result.isLE
  | ComparisonOperator.Equal, result => result.isEq
  | ComparisonOperator.NotEqual, result => !result.isEq

/-- The final branch table of `LogicalExpression::evaluate`. -/
def logicalApply : LogicalOperator → Bool → Bool → Bool
  | LogicalOperator.And, lhs, rhs => lhs && rhs
  | LogicalOperator.Or, lhs, rhs => lhs || rhs
  | LogicalOperator.Xor, lhs, rhs => Bool.xor lhs rhs

/-- `expression.rs`: `Expression::evaluate` for every variant.  `none` models
a panic (`SymbolExpression` on a missing field, `CallExpression` on an
unregistered function name); every other branch mirrors the source:
comparison compares the two evaluated texts with `strCmp`, checks are literal
substring tests except `Matches` which compiles the right-hand text and
yields `"false"` on an invalid pattern, and logical evaluation short-circuits
`and` / `or` on the left value before the right operand is ever evaluated. -/
def evaluate (env : EvalEnv) : Expression → GQLObject → Option String
  | Expression.StringExpression value, _ => some value
  | Expression.SymbolExpression value, object => object.attributes.lookup value
  | Expression.NotExpression right, object => do
      let value ← evaluate env right object
      some (boolString (!(value == "true")))
  | Expression.ComparisonExpression left operator right, object => do
      let value ← evaluate env left object
      let expected ← evaluate env right object
      let result := strCmp value expected
      some (boolString (comparisonApply operator result))
  | Expression.CheckExpression left operator right, object => do
      let value ← evaluate env left object
      let expected ← evaluate env right object
      match operator with
      | CheckOperator.Contains =>
          some (boolString (decide (List.IsInfix expected.data value.data)))
      | CheckOperator.StartsWith =>
          some (boolString (expected.data.isPrefixOf value.data))
      | CheckOperator.EndsWith =>
          some (boolString (expected.data.isSuffixOf value.data))
      | CheckOperator.Matches =>
          match env.regexNew expected with
          | none => some "false"
          | some isMatch => some (boolString (isMatch value))
  | Expression.LogicalExpression left operator right, object => do
      let leftValue ← evaluate env left object
      let lhs := leftValue == "true"
      if operator == LogicalOperator.And && !lhs then
        some "false"
      else if operator == LogicalOperator.Or && lhs then
        some "true"
      else do
        let rightValue ← evaluate env right object
        let rhs := rightValue == "true"
        some (boolString (logicalApply operator lhs rhs))
  | Expression.CallExpression left functionName, object => do
      let lhs ← evaluate env left object
      let transformation ← env.transformations functionName
      some (transformation lhs)

/-- `statement.rs::WhereStatement::execute`: rebuild the sequence keeping
exactly the records whose condition value equals `"true"`, in order.  The
condition is evaluated on every record, front to back; `none` models the
panic if any of those evaluations panics. -/
def whereExecute (env : EvalEnv) (condition : Expression) :
    List GQLObject → Option (List GQLObject)
  | [] => some []
  | object :: rest => do
      let value ← evaluate env condition object
      let tail ← whereExecute env condition rest
      some (if value == "true" then object :: tail else tail)

/-- `statement.rs::LimitStatement::execute`: when `count <= len`, drain
`count..len`, keeping the first `count` records; otherwise do nothing. -/
def limitExecute (count : Nat) (objects : List GQLObject) : List GQLObject :=
  if count ≤ objects.length then objects.take count else objects

/-- `statement.rs::OffsetStatement::execute`: drain `0..min(count, len)`. -/
def offsetExecute (count : Nat) (objects : List GQLObject) : List GQLObject :=
  objects.drop (min count objects.length)

/-- The sort key closure inside `OrderByStatement::execute`:
`object.attributes.get(&field_name).unwrap()`.  The `getD ""` default is only
reachable when the lookup fails, which `orderByExecute` turns into `none`
(the panic) before the sorted result is used. -/
def orderByKey (fieldName : String) (object : GQLObject) : String :=
  (object.attributes.lookup fieldName).getD ""

/-- `statement.rs::OrderByStatement::execute`: no-op on an empty sequence; if
the first record contains the field, stably sort the whole sequence ascending
by each record's value for the field (Rust's `sort_by_key` is a stable merge
sort, modelled by `List.mergeSort`), panicking — `none` — as soon as the key
closure unwraps a record that lacks the field; if the first record lacks the
field, no-op. -/
def orderByExecute (fieldName : String) (objects : List GQLObject) :
    Option (List GQLObject) :=
  match objects with
  | [] => some []
  | first :: _ =>
    if (first.attributes.lookup fieldName).isSome then
      if objects.all (fun object => (object.attributes.lookup fieldName).isSome) then
        some (objects.mergeSort
          (fun a b => (strCmp (orderByKey fieldName a) (orderByKey fieldName b)).isLE))
      else
        none
    else
      some objects

/-! ### Properties of the lexicographic comparison -/

theorem charsCmp_eq_iff : ∀ xs ys : List Char, charsCmp xs ys = Ordering.eq ↔ xs = ys
  | [], [] => by simp [charsCmp]
  | [], _ :: _ => by simp [charsCmp]
  | _ :: _, [] => by simp [charsCmp]
  | x :: xs, y :: ys => by
    rw [charsCmp]
    rcases lt_trichotomy x y with h | h | h
    · simp [h, ne_of_lt h]
    · subst h
      simp [lt_irrefl, charsCmp_eq_iff xs ys]
    · simp [h, asymm h, (ne_of_lt h).symm]

theorem charsCmp_lt_iff : ∀ xs ys : List Char,
    charsCmp xs ys = Ordering.lt ↔ List.Lex (· < ·) xs ys
  | [], [] => by
    simp only [charsCmp, reduceCtorEq, false_iff]
    exact List.Lex.not_nil_right _ _
  | [], y :: ys => by
    simp only [charsCmp, true_iff]
    exact List.Lex.nil
  | x :: xs, [] => by
    simp only [charsCmp, reduceCtorEq, false_iff]
    exact List.Lex.not_nil_right _ _
  | x :: xs, y :: ys => by
    rw [charsCmp]
    rcases lt_trichotomy x y with h | h | h
    · simp only [h, if_pos, true_iff]
      exact List.Lex.rel h
    · subst h
      simp [lt_irrefl, charsCmp_lt_iff xs ys, List.Lex.cons_iff]
    · rw [if_neg (asymm h), if_pos h]
      refine iff_of_false (by decide) ?_
      intro hlex
      cases hlex with
      | rel hr => exact absurd hr (asymm h)
      | cons _ => exact absurd h (lt_irrefl _)

theorem charsCmp_swap : ∀ xs ys : List Char, charsCmp ys xs = (charsCmp xs ys).swap
  | [], [] => rfl
  | [], _ :: _ => rfl
  | _ :: _, [] => rfl
  | x :: xs, y :: ys => by
    rw [charsCmp, charsCmp]
    rcases lt_trichotomy x y with h | h | h
    · simp [h, asymm h, Ordering.swap]
    · subst h
      simp [lt_irrefl, charsCmp_swap xs ys]
    · simp [h, asymm h, Ordering.swap]

theorem charsCmp_isLE_trans : ∀ xs ys zs : List Char,
    (charsCmp xs ys).isLE = true → (charsCmp ys zs).isLE = true →
    (charsCmp xs zs).isLE = true
  | [], ys, zs => by cases zs <;> simp [charsCmp, Ordering.isLE]
  | x :: xs, [], zs => by simp [charsCmp, Ordering.isLE]
  | x :: xs, y :: ys, [] => by
    cases h : charsCmp (x :: xs) (y :: ys) <;> simp [charsCmp, Ordering.isLE]
  | x :: xs, y :: ys, z :: zs => by
    rw [charsCmp, charsCmp, charsCmp]
    rcases lt_trichotomy x y with hxy | hxy | hxy <;>
      rcases lt_trichotomy y z with hyz | hyz | hyz
    · simp [hxy, hyz, lt_trans hxy hyz, Ordering.isLE]
    · subst hyz
      simp [hxy, lt_irrefl, Ordering.isLE]
    · simp [asymm hyz, hyz, Ordering.isLE]
    · subst hxy
      simp [hyz, lt_irrefl, Ordering.isLE]
    · subst hxy
      subst hyz
      simp only [lt_irrefl, if_neg, if_false]
      exact charsCmp_isLE_trans xs ys zs
    · subst hxy
      simp [asymm hyz, hyz, Ordering.isLE]
    · simp [asymm hxy, hxy, Ordering.isLE]
    · simp [asymm hxy, hxy, Ordering.isLE]
    · simp [asymm hxy, hxy, Ordering.isLE]

theorem charsCmp_isLE_total (xs ys : List Char) :
    (charsCmp xs ys).isLE = true ∨ (charsCmp ys xs).isLE = true := by
  rw [charsCmp_swap xs ys]
  cases charsCmp xs ys <;> simp [Ordering.isLE, Ordering.swap]

theorem charsCmp_isLE_iff (xs ys : List Char) :
    (charsCmp xs ys).isLE = true ↔ (List.Lex (· < ·) xs ys ∨ xs = ys) := by
  constructor
  · intro hle
    cases h : charsCmp xs ys with
    | lt => exact Or.inl ((charsCmp_lt_iff xs ys).mp h)
    | eq => exact Or.inr ((charsCmp_eq_iff xs ys).mp h)
    | gt => rw [h] at hle; simp [Ordering.isLE] at hle
  · rintro (hlex | rfl)
    · rw [(charsCmp_lt_iff xs ys).mpr hlex]; rfl
    · rw [(charsCmp_eq_iff xs xs).mpr rfl]; rfl

/-- An environment with an empty transformation registry and a regex engine
that rejects every pattern; used to instantiate universally quantified
theorems at concrete inputs. -/
def env0 : EvalEnv :=
  ⟨fun _ => none, fun _ => none⟩

/-- The empty record. -/
def obj0 : GQLObject :=
  ⟨[]⟩

/-! ### Claims about the expression evaluator -/

/-- C1: for every record, a comparison expression evaluates the left operand
then the right operand to text values, compares them with lexicographic
string ordering (`strCmp`, whose `lt` result is exactly the lexicographic
strict order on the character sequences, not a numeric order), maps the
ordering result through the requested operator, and renders the result as
`"true"` / `"false"`; in particular `"9" < "10"` evaluates to `"false"`. -/
theorem comparison_evaluates_lexicographically (env : EvalEnv) (object : GQLObject)
    (left right : Expression) (operator : ComparisonOperator) (v w : String)
    (hl : evaluate env left object = some v)
    (hr : evaluate env right object = some w) :
    evaluate env (Expression.ComparisonExpression left operator right) object
        = some (boolString (comparisonApply operator (strCmp v w)))
      ∧ (strCmp v w = Ordering.lt ↔ List.Lex (· < ·) v.data w.data)
      ∧ evaluate env (Expression.ComparisonExpression
          (Expression.StringExpression "9") ComparisonOperator.Less
          (Expression.StringExpression "10")) object = some "false" := by
  refine ⟨?_, charsCmp_lt_iff v.data w.data, rfl⟩
  simp [evaluate, hl, hr]

/-- Witness for C1 at `"9" < "10"` on the empty record. -/
theorem comparison_evaluates_lexicographically_witness :
    evaluate env0 (Expression.StringExpression "9") obj0 = some "9"
      ∧ evaluate env0 (Expression.StringExpression "10") obj0 = some "10"
      ∧ evaluate env0 (Expression.ComparisonExpression
          (Expression.StringExpression "9") ComparisonOperator.Less
          (Expression.StringExpression "10")) obj0
        = some (boolString (comparisonApply ComparisonOperator.Less (strCmp "9" "10"))) :=
  ⟨rfl, rfl,
    (comparison_evaluates_lexicographically env0 obj0
      (Expression.StringExpression "9") (Expression.StringExpression "10")
      ComparisonOperator.Less "9" "10" rfl rfl).1⟩

/-- C9: for every record, a negation expression evaluates its operand and
returns the boolean complement of `operand == "true"` rendered as text:
`"false"` exactly when the operand evaluates to `"true"`, and `"true"` for
every other operand value. -/
theorem negation_complements_true (env : EvalEnv) (object : GQLObject)
    (right : Expression) (v : String)
    (h : evaluate env right object = some v) :
    evaluate env (Expression.NotExpression right) object
        = some (boolString (!(v == "true")))
      ∧ (evaluate env (Expression.NotExpression right) object = some "false" ↔ v = "true")
      ∧ (v ≠ "true" →
          evaluate env (Expression.NotExpression right) object = some "true") := by
  by_cases hv : v = "true" <;> simp [evaluate, h, hv, boolString]

/-- Witness for C9 on operand values `"true"` and `"x"`. -/
theorem negation_complements_true_witness :
    evaluate env0 (Expression.StringExpression "true") obj0 = some "true"
      ∧ (evaluate env0 (Expression.NotExpression (Expression.StringExpression "true")) obj0
          = some "false" ↔ ("true" : String) = "true")
      ∧ evaluate env0 (Expression.NotExpression (Expression.StringExpression "x")) obj0
          = some "true" :=
  ⟨rfl,
    (negation_complements_true env0 obj0 (Expression.StringExpression "true") "true" rfl).2.1,
    (negation_complements_true env0 obj0 (Expression.StringExpression "x") "x" rfl).2.2
      (by decide)⟩

/-- C2: for every record, a logical expression evaluates its left operand
first; for `and`, when the left value is not `"true"` the result is
`"false"` for every right operand — even one whose evaluation would fail —
and symmetrically `or` with a `"true"` left value yields `"true"` without
the right operand's value mattering; in the remaining cases the right
operand is evaluated and the two values, each interpreted as
equal-to-`"true"`, are combined with boolean and / or / xor and rendered as
`"true"` / `"false"`. -/
theorem logical_short_circuits (env : EvalEnv) (object : GQLObject)
    (left right : Expression) (operator : LogicalOperator) (lv : String)
    (h : evaluate env left object = some lv) :
    (operator = LogicalOperator.And → lv ≠ "true" →
      evaluate env (Expression.LogicalExpression left operator right) object
        = some "false")
  ∧ (operator = LogicalOperator.Or → lv = "true" →
      evaluate env (Expression.LogicalExpression left operator right) object
        = some "true")
  ∧ (∀ rv, evaluate env right object = some rv →
      ¬(operator = LogicalOperator.And ∧ lv ≠ "true") →
      ¬(operator = LogicalOperator.Or ∧ lv = "true") →
      evaluate env (Expression.LogicalExpression left operator right) object
        = some (boolString (logicalApply operator (lv == "true") (rv == "true")))) := by
  have eAA : (LogicalOperator.And == LogicalOperator.And) = true := rfl
  have eAO : (LogicalOperator.And == LogicalOperator.Or) = false := rfl
  have eOA : (LogicalOperator.Or == LogicalOperator.And) = false := rfl
  have eOO : (LogicalOperator.Or == LogicalOperator.Or) = true := rfl
  have eXA : (LogicalOperator.Xor == LogicalOperator.And) = false := rfl
  have eXO : (LogicalOperator.Xor == LogicalOperator.Or) = false := rfl
  refine ⟨?_, ?_, ?_⟩
  · rintro rfl hlv
    simp [evaluate, h, hlv, eAA, eAO]
  · rintro rfl rfl
    simp [evaluate, h, eOA, eOO]
  · intro rv hrv hnand hnor
    cases operator with
    | And =>
      have hlv : lv = "true" := by tauto
      subst hlv
      simp [evaluate, h, hrv, eAA, eAO, logicalApply]
    | Or =>
      have hlv : lv ≠ "true" := by tauto
      simp [evaluate, h, hrv, hlv, eOA, eOO, logicalApply]
    | Xor =>
      simp [evaluate, h, hrv, eXA, eXO, logicalApply]

/-- Witness for C2: `and` with a `"false"` left operand and a right operand
whose evaluation fails (a missing field) still yields `"false"`. -/
theorem logical_short_circuits_witness :
    evaluate env0 (Expression.StringExpression "false") obj0 = some "false"
      ∧ evaluate env0 (Expression.SymbolExpression "missing") obj0 = none
      ∧ evaluate env0 (Expression.LogicalExpression
          (Expression.StringExpression "false") LogicalOperator.And
          (Expression.SymbolExpression "missing")) obj0 = some "false" :=
  ⟨rfl, rfl,
    (logical_short_circuits env0 obj0 (Expression.StringExpression "false")
      (Expression.SymbolExpression "missing") LogicalOperator.And "false" rfl).1
      rfl (by decide)⟩

/-- C3: for every record, a `matches` check whose evaluated right-hand text
is not a valid regular expression returns the text `"false"` instead of
propagating an error; in particular, whenever the regex engine rejects the
unbalanced pattern `"("`, the check evaluates to `"false"` for every
left-hand value. -/
theorem matches_invalid_regex_is_false (env : EvalEnv) (object : GQLObject)
    (left right : Expression) (v pattern : String)
    (hpat : env.regexNew pattern = none)
    (hl : evaluate env left object = some v)
    (hr : evaluate env right object = some pattern) :
    evaluate env (Expression.CheckExpression left CheckOperator.Matches right) object
        = some "false"
      ∧ (∀ lhs : String, env.regexNew "(" = none →
          evaluate env (Expression.CheckExpression (Expression.StringExpression lhs)
            CheckOperator.Matches (Expression.StringExpression "(")) object
            = some "false") := by
  constructor
  · simp [evaluate, hl, hr, hpat]
  · intro lhs hparen
    simp [evaluate, hparen]

/-- Witness for C3 with a regex engine rejecting `"("`. -/
theorem matches_invalid_regex_is_false_witness :
    env0.regexNew "(" = none
      ∧ evaluate env0 (Expression.StringExpression "anything") obj0 = some "anything"
      ∧ evaluate env0 (Expression.CheckExpression
          (Expression.StringExpression "anything") CheckOperator.Matches
          (Expression.StringExpression "(")) obj0 = some "false" :=
  ⟨rfl, rfl,
    (matches_invalid_regex_is_false env0 obj0 (Expression.StringExpression "anything")
      (Expression.StringExpression "(") "anything" "(" rfl rfl rfl).1⟩

/-! ### Claims about the statement pipeline -/

theorem string_data_inj {a b : String} (h : a.data = b.data) : a = b := by
  cases a
  cases b
  subst h
  rfl

theorem whereExecute_eq_filter (env : EvalEnv) (condition : Expression) :
    ∀ objects : List GQLObject,
      (∀ o ∈ objects, (evaluate env condition o).isSome = true) →
      whereExecute env condition objects
        = some (objects.filter fun o => decide (evaluate env condition o = some "true"))
  | [], _ => by simp [whereExecute]
  | object :: rest, h => by
    obtain ⟨v, hv⟩ := Option.isSome_iff_exists.mp (h object (List.mem_cons_self _ _))
    have ih := whereExecute_eq_filter env condition rest
      (fun o ho => h o (List.mem_cons_of_mem _ ho))
    by_cases hveq : v = "true" <;>
      simp [whereExecute, hv, ih, List.filter_cons, hveq]

/-- C4: for every record sequence whose records the condition evaluates on
without failure, the `Where` statement leaves exactly the records whose
condition value is `"true"` — a `filter`, so surviving records are kept
unmodified, in their original relative order (the result is a sublist of the
input), and all others are dropped. -/
theorem where_keeps_true_records (env : EvalEnv) (condition : Expression)
    (objects : List GQLObject)
    (h : ∀ o ∈ objects, (evaluate env condition o).isSome = true) :
    whereExecute env condition objects
        = some (objects.filter fun o => decide (evaluate env condition o = some "true"))
      ∧ List.Sublist
          (objects.filter fun o => decide (evaluate env condition o = some "true"))
          objects :=
  ⟨whereExecute_eq_filter env condition objects h, List.filter_sublist objects⟩

/-- Witness for C4 on a two-record sequence with condition `x`. -/
theorem where_keeps_true_records_witness :
    (∀ o ∈ ([⟨[("x", "true")]⟩, ⟨[("x", "no")]⟩] : List GQLObject),
        (evaluate env0 (Expression.SymbolExpression "x") o).isSome = true)
      ∧ whereExecute env0 (Expression.SymbolExpression "x")
          [⟨[("x", "true")]⟩, ⟨[("x", "no")]⟩]
        = some (([⟨[("x", "true")]⟩, ⟨[("x", "no")]⟩] : List GQLObject).filter
            fun o => decide (evaluate env0 (Expression.SymbolExpression "x") o
              = some "true")) :=
  ⟨by decide,
    (where_keeps_true_records env0 (Expression.SymbolExpression "x")
      [⟨[("x", "true")]⟩, ⟨[("x", "no")]⟩] (by decide)).1⟩

/-- C5: for a sequence of length `L`, `Limit(n)` keeps exactly the first
`min(n, L)` records (a no-op when `n ≥ L`) and `Offset(n)` drops exactly the
first `min(n, L)` records (the empty sequence, not an error, when
`n ≥ L`). -/
theorem limit_offset_clamp (count : Nat) (objects : List GQLObject) :
    limitExecute count objects = objects.take (min count objects.length)
  ∧ offsetExecute count objects = objects.drop (min count objects.length)
  ∧ (objects.length ≤ count →
      limitExecute count objects = objects ∧ offsetExecute count objects = []) := by
  refine ⟨?_, rfl, ?_⟩
  · unfold limitExecute
    split
    · rename_i hle
      rw [Nat.min_def, if_pos hle]
    · rename_i hgt
      rw [Nat.min_def, if_neg hgt, List.take_length]
  · intro hle
    constructor
    · unfold limitExecute
      split
      · rename_i h2
        have hcount : count = objects.length := le_antisymm h2 hle
        rw [hcount, List.take_length]
      · rfl
    · unfold offsetExecute
      rw [min_eq_right hle, List.drop_length]

/-- Witness for C5: `Limit(10)` and `Offset(10)` on a 3-record sequence. -/
theorem limit_offset_clamp_witness :
    ([obj0, obj0, obj0] : List GQLObject).length ≤ 10
      ∧ limitExecute 10 [obj0, obj0, obj0] = [obj0, obj0, obj0]
      ∧ offsetExecute 10 [obj0, obj0, obj0] = [] :=
  ⟨by decide, (limit_offset_clamp 10 [obj0, obj0, obj0]).2.2 (by decide)⟩

/-- C10: when the sequence is non-empty and its first record contains the
order-by field, `OrderBy` unwraps the field lookup on every record: under the
precondition that every record contains the field the unwrap is unreachable
and execution is total (`isSome`), and without it — some record lacking the
field — the lookup fails (the panic, `none`). -/
theorem orderBy_unwrap_totality (fieldName : String) (first : GQLObject)
    (others : List GQLObject)
    (h : (first.attributes.lookup fieldName).isSome = true) :
    ((∀ o ∈ first :: others, (o.attributes.lookup fieldName).isSome = true) →
      (orderByExecute fieldName (first :: others)).isSome = true)
  ∧ ((∃ o ∈ first :: others, o.attributes.lookup fieldName = none) →
      orderByExecute fieldName (first :: others) = none) := by
  constructor
  · intro hall
    simp [orderByExecute, h, List.all_eq_true.mpr hall]
  · rintro ⟨o, ho, hnone⟩
    have hfalse : (first :: others).all
        (fun object => (object.attributes.lookup fieldName).isSome) = false :=
      List.all_eq_false.mpr ⟨o, ho, by simp [hnone]⟩
    simp [orderByExecute, h, hfalse]

/-- Witness for C10: total on `[{id: 1}]`, failing on `[{id: 1}, {}]`. -/
theorem orderBy_unwrap_totality_witness :
    (((⟨[("id", "1")]⟩ : GQLObject).attributes.lookup "id").isSome = true)
      ∧ (orderByExecute "id" [⟨[("id", "1")]⟩]).isSome = true
      ∧ orderByExecute "id" [⟨[("id", "1")]⟩, ⟨[]⟩] = none := by
  refine ⟨by decide, ?_, ?_⟩
  · exact (orderBy_unwrap_totality "id" ⟨[("id", "1")]⟩ [] (by decide)).1 (by decide)
  · exact (orderBy_unwrap_totality "id" ⟨[("id", "1")]⟩ [⟨[]⟩] (by decide)).2
      ⟨⟨[]⟩, by decide, by decide⟩

/-- C6: `OrderBy` is a no-op on the empty sequence and when the first record
does not contain the field (regardless of the other records); otherwise,
when every record contains the field, it stably sorts the whole sequence
ascending by the lexicographic text value of the field: the result is
pairwise ordered (each key lexicographically below or equal to the next), a
permutation of the input, and records with equal field values keep their
original relative order. -/
theorem orderBy_stable_sort (fieldName : String) (objects : List GQLObject) :
    orderByExecute fieldName ([] : List GQLObject) = some []
  ∧ (∀ first rest, objects = first :: rest →
      first.attributes.lookup fieldName = none →
      orderByExecute fieldName objects = some objects)
  ∧ (objects ≠ [] →
      (∀ o ∈ objects, (o.attributes.lookup fieldName).isSome = true) →
      ∃ sorted, orderByExecute fieldName objects = some sorted
        ∧ sorted.Pairwise (fun a b =>
            List.Lex (· < ·) (orderByKey fieldName a).data (orderByKey fieldName b).data
              ∨ orderByKey fieldName a = orderByKey fieldName b)
        ∧ sorted.Perm objects
        ∧ (∀ a b, orderByKey fieldName a = orderByKey fieldName b →
            List.Sublist [a, b] objects → List.Sublist [a, b] sorted)) := by
  have htrans : ∀ a b c : GQLObject,
      (strCmp (orderByKey fieldName a) (orderByKey fieldName b)).isLE = true →
      (strCmp (orderByKey fieldName b) (orderByKey fieldName c)).isLE = true →
      (strCmp (orderByKey fieldName a) (orderByKey fieldName c)).isLE = true :=
    fun _ _ _ => charsCmp_isLE_trans _ _ _
  have htotal : ∀ a b : GQLObject,
      ((strCmp (orderByKey fieldName a) (orderByKey fieldName b)).isLE
        || (strCmp (orderByKey fieldName b) (orderByKey fieldName a)).isLE) = true := by
    intro a b
    rcases charsCmp_isLE_total (orderByKey fieldName a).data (orderByKey fieldName b).data
      with hc | hc <;> simp [strCmp, hc]
  refine ⟨rfl, ?_, ?_⟩
  · rintro first rest rfl hnone
    simp [orderByExecute, hnone]
  · intro hne hall
    cases objects with
    | nil => exact absurd rfl hne
    | cons first rest =>
      have hfirst : (first.attributes.lookup fieldName).isSome = true :=
        hall first (List.mem_cons_self _ _)
      refine ⟨(first :: rest).mergeSort
          (fun a b => (strCmp (orderByKey fieldName a) (orderByKey fieldName b)).isLE),
        ?_, ?_, ?_, ?_⟩
      · simp [orderByExecute, hfirst, List.all_eq_true.mpr hall]
      · exact (List.sorted_mergeSort htrans htotal (first :: rest)).imp
          (fun hab => ((charsCmp_isLE_iff _ _).mp hab).imp id string_data_inj)
      · exact List.mergeSort_perm _ _
      · intro a b hkey hsub
        have hle : (strCmp (orderByKey fieldName a) (orderByKey fieldName b)).isLE
            = true := by
          rw [strCmp, hkey, (charsCmp_eq_iff _ _).mpr rfl]
          rfl
        exact List.pair_sublist_mergeSort htrans htotal hle hsub

/-- Witness for C6 on the records `{id: 3}, {id: 1}, {id: 2}`. -/
theorem orderBy_stable_sort_witness :
    (([⟨[("id", "3")]⟩, ⟨[("id", "1")]⟩, ⟨[("id", "2")]⟩] : List GQLObject) ≠ [])
      ∧ (∀ o ∈ ([⟨[("id", "3")]⟩, ⟨[("id", "1")]⟩, ⟨[("id", "2")]⟩] : List GQLObject),
          (o.attributes.lookup "id").isSome = true)
      ∧ ∃ sorted,
          orderByExecute "id" [⟨[("id", "3")]⟩, ⟨[("id", "1")]⟩, ⟨[("id", "2")]⟩]
            = some sorted
          ∧ sorted.Perm [⟨[("id", "3")]⟩, ⟨[("id", "1")]⟩, ⟨[("id", "2")]⟩] := by
  refine ⟨by decide, by decide, ?_⟩
  obtain ⟨sorted, h1, _, h3, _⟩ :=
    (orderBy_stable_sort "id"
      [⟨[("id", "3")]⟩, ⟨[("id", "1")]⟩, ⟨[("id", "2")]⟩]).2.2 (by decide) (by decide)
  exact ⟨sorted, h1, h3⟩

/-! ### Claims about the tokenizer -/

/-- The five single-character punctuation kinds. -/
def isPunctKind (kind : TokenKind) : Bool :=
  kind == TokenKind.Star || kind == TokenKind.Or || kind == TokenKind.And ||
    kind == TokenKind.Comma || kind == TokenKind.Equal

/-- The span / literal relationship of one token against the original script:
single-character punctuation tokens carry the degenerate `{start, start}`
span and their literal is the character at `start`; a `String` token's
literal is the re-slice strictly between the quotes, and — when the span
stays inside the script, i.e. the closing quote was present — re-slicing the
full span yields the literal surrounded by the two quote characters; every
other token's literal is exactly the re-slice of its span. -/
def tokenRoundTrip (script : List Char) (t : Token) : Prop :=
  if isPunctKind t.kind = true then
    t.location.stop = t.location.start
      ∧ String.mk (sliceChars script t.location.start (t.location.start + 1)) = t.literal
  else if t.kind = TokenKind.String then
    t.location.start + 2 ≤ t.location.stop
      ∧ String.mk (sliceChars script (t.location.start + 1) (t.location.stop - 1))
          = t.literal
      ∧ (t.location.stop ≤ script.length →
          String.mk (sliceChars script t.location.start t.location.stop)
            = "\"" ++ t.literal ++ "\"")
  else
    String.mk (sliceChars script t.location.start t.location.stop) = t.literal

theorem except_map_eq_ok {ε α β : Type} (f : α → β) (x : Except ε α) (y : β)
    (h : Except.map f x = Except.ok y) : ∃ a, x = Except.ok a ∧ y = f a := by
  cases x with
  | error e => simp [Except.map] at h
  | ok a =>
    refine ⟨a, rfl, ?_⟩
    simpa [Except.map] using h.symm

theorem resolveSymbolKind_not_special (lit : String) :
    isPunctKind (resolveSymbolKind lit) = false
      ∧ resolveSymbolKind lit ≠ TokenKind.String := by
  unfold resolveSymbolKind
  split <;> exact ⟨rfl, by decide⟩

/-- The default (symbol / keyword / number) case of `tokenRoundTrip`. -/
theorem tokenRoundTrip_default {script : List Char} {t : Token}
    (hk : isPunctKind t.kind = false) (hs : t.kind ≠ TokenKind.String)
    (h : String.mk (sliceChars script t.location.start t.location.stop) = t.literal) :
    tokenRoundTrip script t := by
  unfold tokenRoundTrip
  rw [if_neg (show ¬(isPunctKind t.kind = true) by simp [hk]), if_neg hs]
  exact h

/-- The `String`-token case of `tokenRoundTrip`. -/
theorem tokenRoundTrip_string {script : List Char} {t : Token}
    (hk : t.kind = TokenKind.String)
    (h1 : t.location.start + 2 ≤ t.location.stop)
    (h2 : String.mk (sliceChars script (t.location.start + 1) (t.location.stop - 1))
        = t.literal)
    (h3 : t.location.stop ≤ script.length →
        String.mk (sliceChars script t.location.start t.location.stop)
          = "\"" ++ t.literal ++ "\"") :
    tokenRoundTrip script t := by
  unfold tokenRoundTrip
  rw [if_neg (show ¬(isPunctKind t.kind = true) by rw [hk]; decide), if_pos hk]
  exact ⟨h1, h2, h3⟩

/-- The punctuation case of `tokenRoundTrip`. -/
theorem tokenRoundTrip_punct {script : List Char} {t : Token}
    (hk : isPunctKind t.kind = true)
    (h1 : t.location.stop = t.location.start)
    (h2 : String.mk (sliceChars script t.location.start (t.location.start + 1))
        = t.literal) :
    tokenRoundTrip script t := by
  unfold tokenRoundTrip
  rw [if_pos hk]
  exact ⟨h1, h2⟩

/-- Taking as many elements as the maximal satisfying run recovers that run. -/
theorem take_takeWhile_length {α : Type} (p : α → Bool) : ∀ l : List α,
    l.take (l.takeWhile p).length = l.takeWhile p
  | [] => rfl
  | x :: xs => by
    cases hp : p x <;>
      simp [List.takeWhile_cons, hp, List.take_succ_cons, take_takeWhile_length p xs]

/-- Taking one element past a prefix picks up the delimiter after it. -/
theorem take_middle_quote {rest strChars dtail : List Char}
    (hsplit : strChars ++ '"' :: dtail = rest) :
    rest.take (strChars.length + 1) = strChars ++ ['"'] := by
  subst hsplit
  rw [List.take_append_eq_append_take,
    List.take_of_length_le (show strChars.length ≤ strChars.length + 1 by omega),
    Nat.add_sub_cancel_left]
  rfl

/-- Every token produced by the scan loop, run at position `pos` on the
corresponding suffix of `script`, satisfies the span/literal relationship
against the full `script`. -/
theorem tokenizeLoop_roundTrip :
    ∀ (cs : List Char) (pos : Nat) (script : List Char) (tokens : List Token),
      script.drop pos = cs →
      tokenizeLoop cs pos = Except.ok tokens →
      ∀ t ∈ tokens, tokenRoundTrip script t := by
  intro cs pos
  induction cs, pos using tokenizeLoop.induct with
  | case1 pos =>
    intro script tokens _ hok t ht
    simp only [tokenizeLoop] at hok
    injection hok with h
    subst h
    exact absurd ht (List.not_mem_nil t)
  | case2 c rest pos halpha tail n ih =>
    intro script tokens hdrop hok
    simp only [tokenizeLoop] at hok
    rw [if_pos halpha] at hok
    obtain ⟨ts, hts, hcons⟩ := except_map_eq_ok _ _ _ hok
    subst hcons
    intro t ht
    simp only [List.mem_cons] at ht
    have htake : rest.take (rest.takeWhile Char.isAlpha).length
        = rest.takeWhile Char.isAlpha := take_takeWhile_length Char.isAlpha rest
    rcases ht with rfl | hmem
    · obtain ⟨hp, hs⟩ := resolveSymbolKind_not_special
        (String.mk (c :: rest.takeWhile Char.isAlpha))
      have hsl : String.mk (sliceChars script pos
          (pos + ((rest.takeWhile Char.isAlpha).length + 1)))
          = String.mk (c :: rest.takeWhile Char.isAlpha) := by
        rw [sliceChars, Nat.add_sub_cancel_left, hdrop, List.take_succ_cons, htake]
      exact tokenRoundTrip_default hp hs hsl
    · exact ih script ts
        (by rw [← List.drop_drop, hdrop, List.drop_succ_cons]) hts t hmem
  | case3 c rest pos h1 h2 tail n ih =>
    intro script tokens hdrop hok
    simp only [tokenizeLoop] at hok
    rw [if_neg h1, if_pos h2] at hok
    obtain ⟨ts, hts, hcons⟩ := except_map_eq_ok _ _ _ hok
    subst hcons
    intro t ht
    simp only [List.mem_cons] at ht
    have htake : rest.take (rest.takeWhile Char.isDigit).length
        = rest.takeWhile Char.isDigit := take_takeWhile_length Char.isDigit rest
    rcases ht with rfl | hmem
    · have hsl : String.mk (sliceChars script pos
          (pos + ((rest.takeWhile Char.isDigit).length + 1)))
          = String.mk (c :: rest.takeWhile Char.isDigit) := by
        rw [sliceChars, Nat.add_sub_cancel_left, hdrop, List.take_succ_cons, htake]
      exact tokenRoundTrip_default rfl
        (show TokenKind.Number ≠ TokenKind.String by decide) hsl
    · exact ih script ts
        (by rw [← List.drop_drop, hdrop, List.drop_succ_cons]) hts t hmem
  | case4 rest pos strChars m h1 h2 ih =>
    intro script tokens hdrop hok
    simp only [tokenizeLoop] at hok
    rw [if_neg h1, if_neg h2, if_pos True.intro] at hok
    obtain ⟨ts, hts, hcons⟩ := except_map_eq_ok _ _ _ hok
    subst hcons
    intro t ht
    simp only [List.mem_cons] at ht
    have htake : rest.take (rest.takeWhile (fun ch => ch ≠ '"')).length
        = rest.takeWhile (fun ch => ch ≠ '"') :=
      take_takeWhile_length (fun ch => ch ≠ '"') rest
    rcases ht with rfl | hmem
    · have hh1 : pos + 2 ≤ pos + (rest.takeWhile (fun ch => ch ≠ '"')).length + 2 := by
        omega
      have hh2 : String.mk (sliceChars script (pos + 1)
          (pos + (rest.takeWhile (fun ch => ch ≠ '"')).length + 2 - 1))
          = String.mk (rest.takeWhile (fun ch => ch ≠ '"')) := by
        have hm : pos + (rest.takeWhile (fun ch => ch ≠ '"')).length + 2 - 1 - (pos + 1)
            = (rest.takeWhile (fun ch => ch ≠ '"')).length := by omega
        rw [sliceChars, hm, ← List.drop_drop, hdrop, List.drop_succ_cons,
          List.drop_zero, htake]
      have hh3 : pos + (rest.takeWhile (fun ch => ch ≠ '"')).length + 2 ≤ script.length →
          String.mk (sliceChars script pos
              (pos + (rest.takeWhile (fun ch => ch ≠ '"')).length + 2))
            = "\"" ++ String.mk (rest.takeWhile (fun ch => ch ≠ '"')) ++ "\"" := by
        intro hstop
        have hple : pos ≤ script.length := by
          by_contra hgt
          push_neg at hgt
          have hnil2 : script.drop pos = [] := List.drop_eq_nil_of_le (le_of_lt hgt)
          rw [hdrop] at hnil2
          exact absurd hnil2 (by simp)
        have hlen : script.length - pos = rest.length + 1 := by
          rw [← List.length_drop, hdrop]
          simp
        have hmlt : (rest.takeWhile (fun ch => ch ≠ '"')).length + 1 ≤ rest.length := by
          omega
        have hsplit : rest.takeWhile (fun ch => ch ≠ '"')
            ++ rest.dropWhile (fun ch => ch ≠ '"') = rest :=
          List.takeWhile_append_dropWhile _ _
        have hdne : rest.dropWhile (fun ch => ch ≠ '"') ≠ [] := by
          intro hnil2
          rw [hnil2, List.append_nil] at hsplit
          have hlee := congrArg List.length hsplit
          omega
        have hq : (rest.dropWhile (fun ch => ch ≠ '"')).head hdne = '"' := by
          have hhead := List.head_dropWhile_not (fun ch => ch ≠ '"') rest hdne
          simpa using hhead
        have hdcons := (List.head_cons_tail (rest.dropWhile (fun ch => ch ≠ '"')) hdne).symm
        rw [hq] at hdcons
        have hsplit2 : rest.takeWhile (fun ch => ch ≠ '"')
            ++ '"' :: (rest.dropWhile (fun ch => ch ≠ '"')).tail = rest := by
          rw [← hdcons]
          exact hsplit
        have htakem1 := take_middle_quote hsplit2
        have hm2 : pos + (rest.takeWhile (fun ch => ch ≠ '"')).length + 2 - pos
            = (rest.takeWhile (fun ch => ch ≠ '"')).length + 2 := by omega
        rw [sliceChars, hm2, hdrop, List.take_succ_cons, htakem1]
        rfl
      exact tokenRoundTrip_string rfl hh1 hh2 hh3
    · exact ih script ts
        (by rw [show pos + m + 2 = pos + (m + 2) from by omega, ← List.drop_drop,
          hdrop, List.drop_succ_cons]) hts t hmem
  | case5 rest pos h1 h2 h3 ih =>
    intro script tokens hdrop hok
    simp only [tokenizeLoop] at hok
    rw [if_neg h1, if_neg h2, if_neg h3, if_pos True.intro] at hok
    obtain ⟨ts, hts, hcons⟩ := except_map_eq_ok _ _ _ hok
    subst hcons
    intro t ht
    simp only [List.mem_cons] at ht
    rcases ht with rfl | hmem
    · have hsl : String.mk (sliceChars script pos (pos + 1)) = "*" := by
        rw [sliceChars, Nat.add_sub_cancel_left, hdrop]
        rfl
      exact tokenRoundTrip_punct rfl rfl hsl
    · exact ih script ts
        (by rw [← List.drop_drop, hdrop, List.drop_succ_cons, List.drop_zero]) hts t hmem
  | case6 rest pos h1 h2 h3 h4 ih =>
    intro script tokens hdrop hok
    simp only [tokenizeLoop] at hok
    rw [if_neg h1, if_neg h2, if_neg h3, if_neg h4, if_pos True.intro] at hok
    obtain ⟨ts, hts, hcons⟩ := except_map_eq_ok _ _ _ hok
    subst hcons
    intro t ht
    simp only [List.mem_cons] at ht
    rcases ht with rfl | hmem
    · have hsl : String.mk (sliceChars script pos (pos + 1)) = "|" := by
        rw [sliceChars, Nat.add_sub_cancel_left, hdrop]
        rfl
      exact tokenRoundTrip_punct rfl rfl hsl
    · exact ih script ts
        (by rw [← List.drop_drop, hdrop, List.drop_succ_cons, List.drop_zero]) hts t hmem
  | case7 rest pos h1 h2 h3 h4 h5 ih =>
    intro script tokens hdrop hok
    simp only [tokenizeLoop] at hok
    rw [if_neg h1, if_neg h2, if_neg h3, if_neg h4, if_neg h5, if_pos True.intro] at hok
    obtain ⟨ts, hts, hcons⟩ := except_map_eq_ok _ _ _ hok
    subst hcons
    intro t ht
    simp only [List.mem_cons] at ht
    rcases ht with rfl | hmem
    · have hsl : String.mk (sliceChars script pos (pos + 1)) = "&" := by
        rw [sliceChars, Nat.add_sub_cancel_left, hdrop]
        rfl
      exact tokenRoundTrip_punct rfl rfl hsl
    · exact ih script ts
        (by rw [← List.drop_drop, hdrop, List.drop_succ_cons, List.drop_zero]) hts t hmem
  | case8 rest pos h1 h2 h3 h4 h5 h6 ih =>
    intro script tokens hdrop hok
    simp only [tokenizeLoop] at hok
    rw [if_neg h1, if_neg h2, if_neg h3, if_neg h4, if_neg h5, if_neg h6,
      if_pos True.intro] at hok
    obtain ⟨ts, hts, hcons⟩ := except_map_eq_ok _ _ _ hok
    subst hcons
    intro t ht
    simp only [List.mem_cons] at ht
    rcases ht with rfl | hmem
    · have hsl : String.mk (sliceChars script pos (pos + 1)) = "," := by
        rw [sliceChars, Nat.add_sub_cancel_left, hdrop]
        rfl
      exact tokenRoundTrip_punct rfl rfl hsl
    · exact ih script ts
        (by rw [← List.drop_drop, hdrop, List.drop_succ_cons, List.drop_zero]) hts t hmem
  | case9 rest pos h1 h2 h3 h4 h5 h6 h7 ih =>
    intro script tokens hdrop hok
    simp only [tokenizeLoop] at hok
    rw [if_neg h1, if_neg h2, if_neg h3, if_neg h4, if_neg h5, if_neg h6, if_neg h7,
      if_pos True.intro] at hok
    obtain ⟨ts, hts, hcons⟩ := except_map_eq_ok _ _ _ hok
    subst hcons
    intro t ht
    simp only [List.mem_cons] at ht
    rcases ht with rfl | hmem
    · have hsl : String.mk (sliceChars script pos (pos + 1)) = "=" := by
        rw [sliceChars, Nat.add_sub_cancel_left, hdrop]
        rfl
      exact tokenRoundTrip_punct rfl rfl hsl
    · exact ih script ts
        (by rw [← List.drop_drop, hdrop, List.drop_succ_cons, List.drop_zero]) hts t hmem
  | case10 c rest pos h1 h2 h3 h4 h5 h6 h7 h8 hw ih =>
    intro script tokens hdrop hok
    simp only [tokenizeLoop] at hok
    rw [if_neg h1, if_neg h2, if_neg h3, if_neg h4, if_neg h5, if_neg h6, if_neg h7,
      if_neg h8, if_pos hw] at hok
    exact fun t ht => ih script tokens
      (by rw [← List.drop_drop, hdrop, List.drop_succ_cons, List.drop_zero]) hok t ht
  | case11 c rest pos h1 h2 h3 h4 h5 h6 h7 h8 h9 =>
    intro script tokens hdrop hok
    simp only [tokenizeLoop] at hok
    rw [if_neg h1, if_neg h2, if_neg h3, if_neg h4, if_neg h5, if_neg h6, if_neg h7,
      if_neg h8, if_neg h9] at hok
    exact Except.noConfusion hok

/-- C7 counterexample: on the input `"a` — an unterminated string, on which
`tokenize` nevertheless succeeds — the single `String` token has span
`{0, 3}`, which exceeds the 2-character input, and re-slicing the input at
the span can neither reproduce the literal surrounded by its two quote
characters (the claimed convention) nor the bare literal. -/
theorem token_span_round_trip_cex :
    tokenize "\"a" = Except.ok [⟨⟨0, 3⟩, TokenKind.String, "a"⟩]
      ∧ String.mk (sliceChars ("\"a" : String).data 0 3) ≠ "\"" ++ "a" ++ "\""
      ∧ String.mk (sliceChars ("\"a" : String).data 0 3) ≠ "a"
      ∧ 3 > ("\"a" : String).length := by
  refine ⟨?_, by decide, by decide, by decide⟩
  simp [tokenize, tokenizeLoop, Except.map]

/-- C7 (amended): for every input on which `tokenize` succeeds, every
produced token satisfies the span/literal round trip: re-slicing the input
at `[location.start, location.end)` reproduces the literal, except that
single-character punctuation tokens carry the degenerate `{start, start}`
span (the literal is the character at `start`), and a `String` token's
literal is the re-slice strictly between the quotes, the full span
reproducing quote-literal-quote only when the closing quote is present
(`location.end ≤ length`); for an unterminated string the span's end exceeds
the input. -/
theorem token_span_round_trip (script : String) (tokens : List Token)
    (h : tokenize script = Except.ok tokens) :
    ∀ t ∈ tokens, tokenRoundTrip script.data t :=
  tokenizeLoop_roundTrip script.data 0 script.data tokens rfl h

/-- Witness for C7 on the input `a="b"`. -/
theorem token_span_round_trip_witness :
    tokenize "a=\"b\"" = Except.ok
        [⟨⟨0, 1⟩, TokenKind.Symbol, "a"⟩, ⟨⟨1, 1⟩, TokenKind.Equal, "="⟩,
          ⟨⟨2, 5⟩, TokenKind.String, "b"⟩]
      ∧ (∀ t ∈ [⟨⟨0, 1⟩, TokenKind.Symbol, "a"⟩, ⟨⟨1, 1⟩, TokenKind.Equal, "="⟩,
            ⟨⟨2, 5⟩, TokenKind.String, "b"⟩],
          tokenRoundTrip ("a=\"b\"" : String).data t) := by
  have hok : tokenize "a=\"b\"" = Except.ok
      [⟨⟨0, 1⟩, TokenKind.Symbol, "a"⟩, ⟨⟨1, 1⟩, TokenKind.Equal, "="⟩,
        ⟨⟨2, 5⟩, TokenKind.String, "b"⟩] := by
    simp [tokenize, tokenizeLoop, resolveSymbolKind, Except.map]
  exact ⟨hok, token_span_round_trip "a=\"b\"" _ hok⟩

/-- C8: whenever the scanner reaches an opening double quote with no closing
quote anywhere in the remaining input, it consumes to the end of the input
without reporting an error: the produced token is a `String` token whose
literal is all the text after the opening quote, and the cursor — the
token's `location.end` — ends up strictly past the end of the input. -/
theorem unterminated_string_consumes_to_end (rest : List Char) (h : '"' ∉ rest) :
    (∀ pos : Nat, tokenizeLoop ('"' :: rest) pos
        = Except.ok [⟨⟨pos, pos + rest.length + 2⟩, TokenKind.String, String.mk rest⟩])
      ∧ tokenize (String.mk ('"' :: rest))
          = Except.ok [⟨⟨0, rest.length + 2⟩, TokenKind.String, String.mk rest⟩]
      ∧ (String.mk ('"' :: rest)).length < rest.length + 2 := by
  have htw : rest.takeWhile (fun ch => ch ≠ '"') = rest :=
    List.takeWhile_eq_self_iff.mpr (fun x hx => by
      simp only [ne_eq, decide_eq_true_eq]
      intro he
      exact h (he ▸ hx))
  have hnil : rest.drop (rest.length + 1) = [] := List.drop_eq_nil_of_le (by omega)
  have hloop : ∀ pos : Nat, tokenizeLoop ('"' :: rest) pos
      = Except.ok [⟨⟨pos, pos + rest.length + 2⟩, TokenKind.String,
          String.mk rest⟩] := by
    intro pos
    simp only [tokenizeLoop, htw]
    rw [if_neg (show ¬(('"' : Char).isAlpha = true) by decide),
      if_neg (show ¬(('"' : Char).isDigit = true) by decide), hnil]
    simp only [tokenizeLoop, Except.map]
    rw [if_pos True.intro]
  refine ⟨hloop, ?_, ?_⟩
  · have h0 := hloop 0
    rw [Nat.zero_add] at h0
    exact h0
  · simp only [String.length_mk, List.length_cons]
    omega

/-- Witness for C8 on the input `"ab`. -/
theorem unterminated_string_consumes_to_end_witness :
    ('"' ∉ (['a', 'b'] : List Char))
      ∧ tokenize (String.mk ['"', 'a', 'b'])
          = Except.ok [⟨⟨0, 4⟩, TokenKind.String, String.mk ['a', 'b']⟩]
      ∧ (String.mk ['"', 'a', 'b']).length < 4 :=
  ⟨by decide,
    (unterminated_string_consumes_to_end ['a', 'b'] (by decide)).2.1,
    (unterminated_string_consumes_to_end ['a', 'b'] (by decide)).2.2⟩

end GQL
